import Mathlib

/-!
Shallow embedding of the ECG signal-analysis pipeline of `cardiacity-v1`
(`detectRPeaks`, `segmentECGData`, `calculateStats` and their data model),
with theorems checking the natural-language specification against it.

Modelling conventions:
* JavaScript numbers are modelled by exact rationals (`ℚ`); the source never
  relies on floating-point rounding in the properties treated here, with one
  exception: `0/0 = NaN` inside the RMSSD computation.  That single reachable
  NaN is modelled by `Option ℤ` for the `rmssd` field (`none` = NaN); every
  other field is NaN-free on the inputs the data model admits.
* `Math.round(x)` is round-half-up, which is Mathlib's `round` on `ℚ`.
* `Math.round(Math.sqrt q * c)` (an integer) is computed exactly by
  `roundSqrtMul c q` via integer square roots; the lemma
  `roundSqrtMul_eq_round` proves it equal to `round (c * Real.sqrt q)`.
* Array reads `a[i]` become `List.getD l i 0`; all reads performed by the
  functions below are in bounds whenever `time` and `voltage` have equal
  length (the data-model invariant), so the default never matters there.
* The segmenter's array writes `segments[i] = label` are modelled by `jsSet`,
  which overwrites in bounds and, like the JavaScript assignment, grows the
  array with holes (`none` elements) when `i` is past the end.  Each beat is
  guarded on `time[idx]` being defined: an out-of-range `idx` makes `tR`
  `undefined` in the source, every NaN window comparison false, and the whole
  beat a no-op, which the guard reproduces.
-/

/-- A per-sample waveform label, as in the source union type `WaveSegment`. -/
inductive WaveSegment
  | p
  | qrs
  | t
  | baseline
deriving DecidableEq, Repr

/-- The `ECGData` record: parallel `time`/`voltage` arrays and an optional
`segments` array (an absent field is modelled by the outer `none`).  A
JavaScript array can contain holes — positions never assigned, created when
an assignment past the current length grows the array — which read back as
`undefined`; an element-level `none` models such a hole, and `some l` models
a proper label `l`.  Arrays produced by the parser or the generator are
hole-free (every element `some _`). -/
structure ECGData where
  time : List ℚ
  voltage : List ℚ
  segments : Option (List (Option WaveSegment)) := none
deriving DecidableEq, Repr

/-- The `ECGStatistics` record returned by `calculateStats`.  `rmssd` is
`Option ℤ`: `none` models the IEEE NaN that the source produces via `0/0`
when there is exactly one RR interval. -/
structure ECGStatistics where
  bpm : ℤ
  rrIntervals : List ℚ
  sdnn : ℤ
  rmssd : Option ℤ
  qrsDuration : ℤ
  duration : ℚ
  minRR : ℚ
  maxRR : ℚ
deriving DecidableEq, Repr

/-- `Math.max(...l)` for a nonempty list (the sources only call it so). -/
def jsMax : List ℚ → ℚ
  | [] => 0
  | x :: xs => xs.foldl max x

/-- `Math.min(...l)` for a nonempty list (the sources only call it so). -/
def jsMin : List ℚ → ℚ
  | [] => 0
  | x :: xs => xs.foldl min x

/-- Exact value of `Math.round(c * Math.sqrt q)` for `0 ≤ q`, computed with
integer square roots so that it is executable.  For `q = n / d` (in lowest
terms, `d > 0`) we have `c·√q + 1/2 = (√(4c²nd) + d) / (2d)`, whose floor is
computed below. -/
def roundSqrtMul (c : ℕ) (q : ℚ) : ℤ :=
  ((Nat.sqrt (4 * c ^ 2 * q.num.toNat * q.den) + q.den) / (2 * q.den) : ℕ)

/-- The mean-centered signal `centered[i] = voltage[i] - mean(voltage)` built
at the top of `detectRPeaks`. -/
def centeredOf (voltage : List ℚ) : List ℚ :=
  voltage.map (fun v => v - voltage.sum / (voltage.length : ℚ))

/-- `maxVal = Math.max(...centered.map(Math.abs))` from `detectRPeaks`. -/
def maxAbsOf (voltage : List ℚ) : ℚ :=
  jsMax ((centeredOf voltage).map (fun x => |x|))

/-- One iteration of the scan loop of `detectRPeaks`: the state is the pair
`(peaksIndices, lastPeakTime)`; index `i` is accepted when it is a strict
local maximum of `centered`, exceeds the threshold, and falls more than the
refractory period after the previously accepted peak. -/
def detectStep (time centered : List ℚ) (threshold : ℚ)
    (st : List ℕ × ℚ) (i : ℕ) : List ℕ × ℚ :=
  let current := centered.getD i 0
  let prev := centered.getD (i - 1) 0
  let next := centered.getD (i + 1) 0
  if current > prev ∧ current > next then
    if current > threshold then
      if time.getD i 0 - st.2 > 0.25 then (st.1 ++ [i], time.getD i 0) else st
    else st
  else st

/-- The R-peak detector.  The loop `for (i = 1; i < time.length - 1; i++)`
is the fold over `List.range' 1 (time.length - 1 - 1)`; `lastPeakTime` starts
at `-refractoryPeriod = -0.25`. -/
def detectRPeaks (time voltage : List ℚ) : List ℕ :=
  if time.length = 0 ∨ voltage.length = 0 then []
  else
    ((List.range' 1 (time.length - 1 - 1)).foldl
      (detectStep time (centeredOf voltage) (maxAbsOf voltage * 0.6))
      ([], -0.25)).1

/-- The JavaScript array assignment `segs[i] = a`: in bounds it overwrites
position `i`; past the end it grows the array to length `i + 1`, the skipped
positions becoming holes (`none`), and stores `a` at position `i`. -/
def jsSet (segs : List (Option WaveSegment)) (i : ℕ) (a : WaveSegment) :
    List (Option WaveSegment) :=
  if i < segs.length then segs.set i (some a)
  else segs ++ List.replicate (i - segs.length) none ++ [some a]

/-- Labelling step of the backward scan body of `segmentECGData`, for
`dt = tR - time[i]`: `p` on `0.1 < dt < 0.22`, else `qrs` on `dt ≤ 0.06`. -/
def backLabel (time : List ℚ) (tR : ℚ) (i : ℕ) (segs : List (Option WaveSegment)) :
    List (Option WaveSegment) :=
  if tR - time.getD i 0 > 0.1 ∧ tR - time.getD i 0 < 0.22 then
    jsSet segs i WaveSegment.p
  else if tR - time.getD i 0 ≤ 0.06 then jsSet segs i WaveSegment.qrs
  else segs

/-- Backward scan of `segmentECGData` for one beat: runs `i = idx, idx-1, …, 0`;
each iteration breaks once `tR - time[i] > 0.25`, otherwise labels and
continues downward. -/
def backScan (time : List ℚ) (tR : ℚ) :
    ℕ → List (Option WaveSegment) → List (Option WaveSegment)
  | 0, segs =>
    if tR - time.getD 0 0 > 0.25 then segs else backLabel time tR 0 segs
  | Nat.succ j, segs =>
    if tR - time.getD (j + 1) 0 > 0.25 then segs
    else backScan time tR j (backLabel time tR (j + 1) segs)

/-- Labelling step of the forward scan body of `segmentECGData`, for
`dt = time[i] - tR`: `qrs` on `dt < 0.06`, else `t` on `0.12 < dt < 0.42`. -/
def fwdLabel (time : List ℚ) (tR : ℚ) (i : ℕ) (segs : List (Option WaveSegment)) :
    List (Option WaveSegment) :=
  if time.getD i 0 - tR < 0.06 then jsSet segs i WaveSegment.qrs
  else if time.getD i 0 - tR > 0.12 ∧ time.getD i 0 - tR < 0.42 then
    jsSet segs i WaveSegment.t
  else segs

/-- Forward scan of `segmentECGData` for one beat, with explicit fuel (the
source loop runs `i = idx+1, …` while `i < time.length`, so fuel
`time.length - i` suffices; when fuel is 0 the bound check fails anyway).
Each iteration breaks once `time[i] - tR > 0.45`, otherwise labels and
continues upward. -/
def fwdScanAux (time : List ℚ) (tR : ℚ) :
    ℕ → ℕ → List (Option WaveSegment) → List (Option WaveSegment)
  | 0, _, segs => segs
  | fuel + 1, i, segs =>
    if i < time.length then
      if time.getD i 0 - tR > 0.45 then segs
      else fwdScanAux time tR fuel (i + 1) (fwdLabel time tR i segs)
    else segs

/-- Forward scan entry point, starting at `idx + 1`. -/
def fwdScan (time : List ℚ) (tR : ℚ) (i : ℕ) (segs : List (Option WaveSegment)) :
    List (Option WaveSegment) :=
  fwdScanAux time tR (time.length - i) i segs

/-- The heuristic segmenter.  `data.segments || new Array(n).fill('baseline')`
becomes a match on the optional field (every JavaScript array, including the
empty one, is truthy); beats are processed in list order by `forEach`, and
`jsSet` models the in-place array writes (later writes overwrite earlier
ones, and a write past the end grows the array).  When `idx` is out of range,
`tR = time[idx]` is `undefined` in the source, every window comparison on the
resulting NaN is false, and neither scan writes or breaks — the beat is a
no-op, which the `none` branch of the match reproduces. -/
def segmentECGData (data : ECGData) (rPeakIndices : List ℕ) : ECGData :=
  let segs0 :=
    match data.segments with
    | some s => s
    | none => List.replicate data.time.length (some WaveSegment.baseline)
  let segs := rPeakIndices.foldl
    (fun segs idx =>
      match data.time[idx]? with
      | none => segs
      | some tR => fwdScan data.time tR (idx + 1) (backScan data.time tR idx segs))
    segs0
  { data with segments := some segs }

/-- The statistics aggregator `calculateStats`.  In the degenerate branch the
source returns `rmssd: 0` (here `some 0`); in the main branch, with exactly
one RR interval, the source computes `Math.sqrt(0 / 0) = NaN` (here `none`). -/
def calculateStats (rPeakIndices : List ℕ) (time : List ℚ) : ECGStatistics :=
  let duration :=
    if 0 < time.length then time.getD (time.length - 1) 0 - time.getD 0 0 else 0
  if rPeakIndices.length < 2 then
    { bpm := 0, rrIntervals := [], sdnn := 0, rmssd := some 0, qrsDuration := 80,
      duration := duration, minRR := 0, maxRR := 0 }
  else
    let rrIntervals := (rPeakIndices.zip rPeakIndices.tail).map
      (fun ab => time.getD ab.2 0 - time.getD ab.1 0)
    let bpm := round (60 / (rrIntervals.sum / (rrIntervals.length : ℚ)))
    let meanRR := rrIntervals.sum / (rrIntervals.length : ℚ)
    let squaredDiffs := rrIntervals.map (fun rr => (rr - meanRR) ^ 2)
    let sdnn := roundSqrtMul 1000 (squaredDiffs.sum / (squaredDiffs.length : ℚ))
    let sumSquaredDiffs := ((rrIntervals.zip rrIntervals.tail).map
      (fun ab => ((ab.2 - ab.1) * 1000) ^ 2)).sum
    let rmssd :=
      if rrIntervals.length ≤ 1 then none
      else some (roundSqrtMul 1 (sumSquaredDiffs / ((rrIntervals.length - 1 : ℕ) : ℚ)))
    { bpm := bpm, rrIntervals := rrIntervals, sdnn := sdnn, rmssd := rmssd,
      qrsDuration := 90, duration := duration,
      minRR := jsMin rrIntervals, maxRR := jsMax rrIntervals }

/-! ### Correctness of the integer-square-root encoding of `Math.round(Math.sqrt _ * _)` -/

/-- For nonnegative `q`, `roundSqrtMul c q` is exactly `round (c * √q)` over the
reals, so the executable encoding agrees with the source's
`Math.round(Math.sqrt q * c)` under exact real semantics. -/
theorem roundSqrtMul_eq_round (c : ℕ) (q : ℚ) (hq : 0 ≤ q) :
    roundSqrtMul c q = round ((c : ℝ) * Real.sqrt (q : ℝ)) := by
  have hdpos : 0 < q.den := q.den_pos
  have hdR : (0 : ℝ) < (q.den : ℝ) := by exact_mod_cast hdpos
  have hcast : (q : ℝ) = (q.num.toNat : ℝ) / (q.den : ℝ) := by
    rw [Rat.cast_def]
    congr 1
    exact_mod_cast congrArg (fun z : ℤ => (z : ℝ))
      (Int.toNat_of_nonneg (Rat.num_nonneg.2 hq)).symm
  have key2 : Real.sqrt ((4 * c ^ 2 * q.num.toNat * q.den : ℕ) : ℝ)
      = 2 * (c : ℝ) * Real.sqrt (q : ℝ) * (q.den : ℝ) := by
    have hM : ((4 * c ^ 2 * q.num.toNat * q.den : ℕ) : ℝ)
        = (2 * (c : ℝ)) ^ 2 * ((q : ℝ) * (q.den : ℝ) ^ 2) := by
      push_cast
      rw [hcast]
      field_simp
      ring
    rw [hM, Real.sqrt_mul (by positivity), Real.sqrt_mul (Rat.cast_nonneg.2 hq),
      Real.sqrt_sq (by positivity), Real.sqrt_sq hdR.le]
    ring
  have harg : (c : ℝ) * Real.sqrt (q : ℝ) + 1 / 2
      = (Real.sqrt ((4 * c ^ 2 * q.num.toNat * q.den : ℕ) : ℝ) + (q.den : ℝ))
        / ((2 * q.den : ℕ) : ℝ) := by
    rw [key2]
    push_cast
    field_simp
    ring
  rw [round_eq, harg]
  have hx0 : 0 ≤ (Real.sqrt ((4 * c ^ 2 * q.num.toNat * q.den : ℕ) : ℝ) + (q.den : ℝ))
      / ((2 * q.den : ℕ) : ℝ) := by positivity
  rw [← Int.natCast_floor_eq_floor hx0]
  rw [Nat.floor_div_nat]
  rw [Nat.floor_add_nat (Real.sqrt_nonneg _)]
  rw [Real.nat_floor_real_sqrt_eq_nat_sqrt]
  rfl

/-! ### Invariants of the detector scan loop -/

/-- Each loop iteration either leaves the state unchanged or appends the
current index, recording the acceptance guards that held. -/
theorem detectStep_cases (t c : List ℚ) (thr : ℚ) (st : List ℕ × ℚ) (x : ℕ) :
    detectStep t c thr st x = st ∨
      (detectStep t c thr st x = (st.1 ++ [x], t.getD x 0) ∧
        c.getD (x - 1) 0 < c.getD x 0 ∧ c.getD (x + 1) 0 < c.getD x 0 ∧
        thr < c.getD x 0 ∧ 0.25 < t.getD x 0 - st.2) := by
  simp only [detectStep]
  split_ifs with h1 h2 h3
  · exact Or.inr ⟨rfl, h1.1, h1.2, h2, h3⟩
  all_goals exact Or.inl rfl

/-- Every index in the folded state comes from the initial state or from the
scanned index list. -/
theorem detect_fold_mem (t c : List ℚ) (thr : ℚ) (l : List ℕ) :
    ∀ (st : List ℕ × ℚ) (i : ℕ),
      i ∈ (l.foldl (detectStep t c thr) st).1 → i ∈ st.1 ∨ i ∈ l := by
  induction l with
  | nil => exact fun st i h => Or.inl h
  | cons x xs ih =>
    intro st i h
    rw [List.foldl_cons] at h
    rcases ih (detectStep t c thr st x) i h with h' | h'
    · rcases detectStep_cases t c thr st x with he | ⟨he, _⟩
      · rw [he] at h'
        exact Or.inl h'
      · rw [he] at h'
        rcases List.mem_append.1 h' with h'' | h''
        · exact Or.inl h''
        · simp only [List.mem_singleton] at h''
          exact Or.inr (by simp [h''])
    · exact Or.inr (List.mem_cons_of_mem _ h')

/-- Local-maximum and threshold guards hold for every accepted index. -/
theorem detect_fold_cond (t c : List ℚ) (thr : ℚ) (l : List ℕ) :
    ∀ st : List ℕ × ℚ,
      (∀ i ∈ st.1, c.getD (i - 1) 0 < c.getD i 0 ∧ c.getD (i + 1) 0 < c.getD i 0 ∧
        thr < c.getD i 0) →
      ∀ i ∈ (l.foldl (detectStep t c thr) st).1,
        c.getD (i - 1) 0 < c.getD i 0 ∧ c.getD (i + 1) 0 < c.getD i 0 ∧
          thr < c.getD i 0 := by
  induction l with
  | nil => exact fun st hst => hst
  | cons x xs ih =>
    intro st hst
    rw [List.foldl_cons]
    apply ih
    intro i hi
    rcases detectStep_cases t c thr st x with he | ⟨he, hg1, hg2, hg3, _⟩
    · rw [he] at hi
      exact hst i hi
    · rw [he] at hi
      rcases List.mem_append.1 hi with h'' | h''
      · exact hst i h''
      · simp only [List.mem_singleton] at h''
        subst h''
        exact ⟨hg1, hg2, hg3⟩

/-- Consecutive accepted indices are more than the refractory period apart,
as long as the tracked `lastPeakTime` matches the last accepted index. -/
theorem detect_fold_chain (t c : List ℚ) (thr : ℚ) (l : List ℕ) :
    ∀ st : List ℕ × ℚ,
      List.Chain' (fun a b => 0.25 < t.getD b 0 - t.getD a 0) st.1 →
      (∀ y ∈ st.1.getLast?, t.getD y 0 = st.2) →
      List.Chain' (fun a b => 0.25 < t.getD b 0 - t.getD a 0)
        (l.foldl (detectStep t c thr) st).1 := by
  induction l with
  | nil => exact fun st h _ => h
  | cons x xs ih =>
    intro st h1 h2
    rw [List.foldl_cons]
    rcases detectStep_cases t c thr st x with he | ⟨he, _, _, _, hg⟩
    · rw [he]
      exact ih st h1 h2
    · rw [he]
      apply ih
      · rw [List.chain'_append]
        refine ⟨h1, List.chain'_singleton x, ?_⟩
        intro a ha b hb
        simp only [List.head?_cons, Option.mem_def, Option.some.injEq] at hb
        subst hb
        rw [h2 a ha]
        exact hg
      · intro y hy
        rw [List.getLast?_concat] at hy
        simp only [Option.mem_def, Option.some.injEq] at hy
        subst hy
        rfl

/-- The accepted index list stays strictly increasing when the scanned index
list is strictly increasing and exceeds everything already accepted. -/
theorem detect_fold_pairwise (t c : List ℚ) (thr : ℚ) (l : List ℕ) :
    ∀ st : List ℕ × ℚ,
      st.1.Pairwise (· < ·) →
      (∀ a ∈ st.1, ∀ b ∈ l, a < b) →
      l.Pairwise (· < ·) →
      ((l.foldl (detectStep t c thr) st).1).Pairwise (· < ·) := by
  induction l with
  | nil => exact fun st h _ _ => h
  | cons x xs ih =>
    intro st h1 h2 h3
    rw [List.foldl_cons]
    rcases List.pairwise_cons.1 h3 with ⟨hx, hxs⟩
    rcases detectStep_cases t c thr st x with he | ⟨he, _⟩
    · rw [he]
      exact ih st h1 (fun a ha b hb => h2 a ha b (List.mem_cons_of_mem _ hb)) hxs
    · rw [he]
      apply ih
      · rw [List.pairwise_append]
        refine ⟨h1, List.pairwise_singleton _ _, ?_⟩
        intro a ha b hb
        simp only [List.mem_singleton] at hb
        subst hb
        exact h2 a ha _ (List.mem_cons_self ..)
      · intro a ha b hb
        rcases List.mem_append.1 ha with h'' | h''
        · exact h2 a h'' b (List.mem_cons_of_mem _ hb)
        · simp only [List.mem_singleton] at h''
          subst h''
          exact hx b hb
      · exact hxs

/-- Reading any position of an all-zero list with default `0` yields `0`. -/
theorem getD_eq_zero_of_all_zero {l : List ℚ} (h : ∀ x ∈ l, x = 0) (i : ℕ) :
    l.getD i 0 = 0 := by
  rw [List.getD_eq_getElem?_getD]
  cases hl : l[i]? with
  | none => rfl
  | some a => exact h a (List.getElem?_mem hl)

/-- Mean-centering a constant signal yields the all-zero signal. -/
theorem centeredOf_flat {voltage : List ℚ} {v0 : ℚ} (h : ∀ v ∈ voltage, v = v0) :
    ∀ x ∈ centeredOf voltage, x = 0 := by
  intro x hx
  rcases List.mem_map.1 hx with ⟨v, hv, rfl⟩
  have hlen : (voltage.length : ℚ) ≠ 0 := by
    simp only [ne_eq, Nat.cast_eq_zero, List.length_eq_zero]
    intro h0
    rw [h0] at hv
    cases hv
  have hsum : voltage.sum = (voltage.length : ℚ) * v0 := by
    rw [List.sum_eq_card_nsmul voltage v0 h, nsmul_eq_mul]
  rw [h v hv, hsum]
  field_simp

/-- A fold whose step fixes every state is the identity. -/
theorem foldl_fixed {α β : Type} (f : β → α → β) (l : List α) (st : β)
    (h : ∀ b, ∀ x ∈ l, f b x = b) : l.foldl f st = st := by
  induction l generalizing st with
  | nil => rfl
  | cons x xs ih =>
    rw [List.foldl_cons, h st x (List.mem_cons_self ..)]
    exact ih st (fun b y hy => h b y (List.mem_cons_of_mem _ hy))

/-- At the initial state `([], -0.25)` the refractory test degenerates to
`0 < time[i]`: any qualifying peak with a positive timestamp is accepted. -/
theorem detect_first_eligible (time centered : List ℚ) (threshold : ℚ) (i : ℕ) :
    detectStep time centered threshold ([], -0.25) i =
      if centered.getD (i - 1) 0 < centered.getD i 0 ∧
          centered.getD (i + 1) 0 < centered.getD i 0 ∧
          threshold < centered.getD i 0 ∧ 0 < time.getD i 0
      then ([i], time.getD i 0) else ([], -0.25) := by
  simp only [detectStep]
  by_cases hA : centered.getD i 0 > centered.getD (i - 1) 0 ∧
      centered.getD i 0 > centered.getD (i + 1) 0
  case neg =>
    rw [if_neg hA, if_neg (fun hD => hA ⟨hD.1, hD.2.1⟩)]
  case pos =>
    rw [if_pos hA]
    by_cases hB : centered.getD i 0 > threshold
    case neg =>
      rw [if_neg hB, if_neg (fun hD => hB hD.2.2.1)]
    case pos =>
      rw [if_pos hB]
      by_cases hC : time.getD i 0 - -0.25 > (0.25 : ℚ)
      case pos =>
        rw [if_pos hC]
        rw [if_pos (show _ ∧ _ ∧ _ ∧ _ from ⟨hA.1, hA.2, hB, by linarith⟩)]
        rw [List.nil_append]
      case neg =>
        rw [if_neg hC, if_neg (fun hD => hC (by linarith [hD.2.2.2]))]

/-! ### Claim theorems: beat detector -/

/-- C2: for every pair of consecutive accepted beats returned by
`detectRPeaks`, the time gap exceeds the 0.25 s refractory period; moreover,
because `lastPeakTime` is initialised to `-0.25`, at the initial state the
refractory test degenerates to `0 < time[i]`, so the very first qualifying
peak (whose timestamp is positive) is always eligible. -/
theorem detectRPeaks_refractory_invariant (time voltage : List ℚ) :
    List.Chain' (fun a b => 0.25 < time.getD b 0 - time.getD a 0)
        (detectRPeaks time voltage) ∧
      ∀ (centered : List ℚ) (threshold : ℚ) (i : ℕ),
        detectStep time centered threshold ([], -0.25) i =
          if centered.getD (i - 1) 0 < centered.getD i 0 ∧
              centered.getD (i + 1) 0 < centered.getD i 0 ∧
              threshold < centered.getD i 0 ∧ 0 < time.getD i 0
          then ([i], time.getD i 0) else ([], -0.25) := by
  constructor
  · unfold detectRPeaks
    split_ifs with h
    · exact List.chain'_nil
    · exact detect_fold_chain time (centeredOf voltage) (maxAbsOf voltage * 0.6) _
        ([], -0.25) List.chain'_nil (by intro y hy; cases hy)
  · exact detect_first_eligible time

/-- C3: every index returned by `detectRPeaks` is a strict local maximum of
the mean-centered signal and its centered amplitude strictly exceeds
`0.6 * max |centered|` taken over the whole signal. -/
theorem detectRPeaks_threshold_invariant (time voltage : List ℚ) (i : ℕ)
    (hi : i ∈ detectRPeaks time voltage) :
    (centeredOf voltage).getD (i - 1) 0 < (centeredOf voltage).getD i 0 ∧
    (centeredOf voltage).getD (i + 1) 0 < (centeredOf voltage).getD i 0 ∧
    0.6 * maxAbsOf voltage < (centeredOf voltage).getD i 0 := by
  unfold detectRPeaks at hi
  split_ifs at hi with h
  · cases hi
  · have hcond := detect_fold_cond time (centeredOf voltage)
      (maxAbsOf voltage * 0.6) _ ([], -0.25) (by intro j hj; cases hj) i hi
    rw [mul_comm] at hcond
    exact hcond

/-- Witness for C3 at the concrete signal `time = [0,1,2]`,
`voltage = [0,1,0]`, whose only detected beat is index 1. -/
theorem detectRPeaks_threshold_invariant_witness :
    1 ∈ detectRPeaks [0, 1, 2] [0, 1, 0] ∧
    ((centeredOf [0, 1, 0]).getD 0 0 < (centeredOf [0, 1, 0]).getD 1 0 ∧
     (centeredOf [0, 1, 0]).getD 2 0 < (centeredOf [0, 1, 0]).getD 1 0 ∧
     0.6 * maxAbsOf [0, 1, 0] < (centeredOf [0, 1, 0]).getD 1 0) :=
  have hmem : 1 ∈ detectRPeaks [0, 1, 2] [0, 1, 0] := by
    have hev : detectRPeaks [0, 1, 2] [0, 1, 0] = [1] := by
      norm_num [detectRPeaks, detectStep, centeredOf, maxAbsOf, jsMax,
        List.range', abs, max_def]
    rw [hev]
    exact List.mem_singleton.2 rfl
  ⟨hmem, detectRPeaks_threshold_invariant [0, 1, 2] [0, 1, 0] 1 hmem⟩

/-- C9: signals with fewer than 3 samples yield no beats, and a completely
flat signal (all voltages equal, hence `maxAbs = 0` after centering) yields
no beats either. -/
theorem detectRPeaks_degenerate_inputs (time voltage : List ℚ) (v0 : ℚ) :
    (time.length < 3 → detectRPeaks time voltage = []) ∧
    ((∀ v ∈ voltage, v = v0) → detectRPeaks time voltage = []) := by
  constructor
  · intro h
    unfold detectRPeaks
    split_ifs with h0
    · rfl
    · have hn : time.length - 1 - 1 = 0 := by omega
      rw [hn, List.range'_zero, List.foldl_nil]
  · intro h
    unfold detectRPeaks
    split_ifs with h0
    · rfl
    · rw [foldl_fixed]
      intro st x _
      have hz := getD_eq_zero_of_all_zero (centeredOf_flat h)
      simp only [detectStep, hz]
      rw [if_neg]
      intro hcon
      exact absurd hcon.1 (lt_irrefl 0)

/-- Witness for C9: a 2-sample signal, and the all-zero 1000-sample signal
sampled at 250 Hz. -/
theorem detectRPeaks_degenerate_inputs_witness :
    ([0, 1] : List ℚ).length < 3 ∧
    detectRPeaks [0, 1] [0, 2] = [] ∧
    detectRPeaks ((List.range 1000).map (fun n => (n : ℚ) / 250))
      (List.replicate 1000 0) = [] :=
  ⟨by decide,
   (detectRPeaks_degenerate_inputs [0, 1] [0, 2] 0).1 (by decide),
   (detectRPeaks_degenerate_inputs ((List.range 1000).map (fun n => (n : ℚ) / 250))
      (List.replicate 1000 0) 0).2 (fun v hv => List.eq_of_mem_replicate hv)⟩

/-- C10: with equal-length `time` and `voltage`, every returned index lies in
`[1, time.length - 2]` (so neighbour reads and all downstream `time[idx]`
reads are in bounds) and the returned list is strictly increasing. -/
theorem detectRPeaks_indices_inbounds_sorted (time voltage : List ℚ)
    (h : time.length = voltage.length) :
    (∀ i ∈ detectRPeaks time voltage,
      1 ≤ i ∧ i + 1 < time.length ∧ i < time.length ∧ i < voltage.length) ∧
    (detectRPeaks time voltage).Pairwise (· < ·) := by
  constructor
  · intro i hi
    unfold detectRPeaks at hi
    split_ifs at hi with h0
    · cases hi
    · rcases detect_fold_mem time (centeredOf voltage) (maxAbsOf voltage * 0.6) _
        ([], -0.25) i hi with h' | h'
      · cases h'
      · rw [List.mem_range'_1] at h'
        omega
  · unfold detectRPeaks
    split_ifs with h0
    · exact List.Pairwise.nil
    · exact detect_fold_pairwise time (centeredOf voltage) (maxAbsOf voltage * 0.6) _
        ([], -0.25) List.Pairwise.nil (by intro a ha; cases ha)
        (List.pairwise_lt_range' 1 _)

/-- Witness for C10 at the concrete signal `time = [0,1,2]`,
`voltage = [0,1,0]`. -/
theorem detectRPeaks_indices_inbounds_sorted_witness :
    ([0, 1, 2] : List ℚ).length = ([0, 1, 0] : List ℚ).length ∧
    ((∀ i ∈ detectRPeaks [0, 1, 2] [0, 1, 0],
        1 ≤ i ∧ i + 1 < ([0, 1, 2] : List ℚ).length ∧
        i < ([0, 1, 2] : List ℚ).length ∧ i < ([0, 1, 0] : List ℚ).length) ∧
      (detectRPeaks [0, 1, 2] [0, 1, 0]).Pairwise (· < ·)) :=
  ⟨rfl, detectRPeaks_indices_inbounds_sorted [0, 1, 2] [0, 1, 0] rfl⟩

/-! ### Claim theorems: statistics aggregator -/

/-- C1 (failing input): with exactly two beats there is exactly one RR
interval and the successive-difference loop is empty, so the source computes
`Math.round(Math.sqrt(0 / 0)) = NaN` for `rmssd` (modelled `none`) — there is
no special case returning `0` as the specification requires. -/
theorem calculateStats_rmssd_nan_on_two_beats :
    (calculateStats [0, 1] [0, 1]).rrIntervals.length = 1 ∧
    (calculateStats [0, 1] [0, 1]).rmssd = none ∧
    (calculateStats [0, 1] [0, 1]).rmssd ≠ some 0 := by
  have h : (calculateStats [0, 1] [0, 1]).rmssd = none := by
    norm_num [calculateStats]
  refine ⟨by norm_num [calculateStats], h, ?_⟩
  rw [h]
  exact fun hcon => Option.noConfusion hcon

/-- C4: with fewer than two beat indices, `calculateStats` raises no error
and returns the explicit degenerate record (with `qrsDuration = 80` and
`duration = time[last] - time[first]`, `0` for an empty time array). -/
theorem calculateStats_degenerate (p : List ℕ) (t : List ℚ)
    (h : p.length < 2) :
    calculateStats p t =
      { bpm := 0, rrIntervals := [], sdnn := 0, rmssd := some 0,
        qrsDuration := 80,
        duration := if 0 < t.length then t.getD (t.length - 1) 0 - t.getD 0 0 else 0,
        minRR := 0, maxRR := 0 } := by
  unfold calculateStats
  rw [if_pos h]

/-- Witness for C4: a single beat index over `time = [0, 2]`. -/
theorem calculateStats_degenerate_witness :
    ([1] : List ℕ).length < 2 ∧
    calculateStats [1] [0, 2] =
      { bpm := 0, rrIntervals := [], sdnn := 0, rmssd := some 0,
        qrsDuration := 80, duration := 2, minRR := 0, maxRR := 0 } :=
  ⟨by decide, by
    rw [calculateStats_degenerate [1] [0, 2] (by decide)]
    norm_num⟩

/-- RR intervals as the specification defines them:
`rrIntervals[k] = time[beatIndices[k+1]] - time[beatIndices[k]]` for
consecutive beat pairs. -/
def specRRIntervals (beatIndices : List ℕ) (time : List ℚ) : List ℚ :=
  (beatIndices.zip beatIndices.tail).map
    (fun ab => time.getD ab.2 0 - time.getD ab.1 0)

/-- Population variance (divide by `N`, not `N-1`), the quantity under the
square root in the specification's SDNN formula. -/
def specPopVariance (l : List ℚ) : ℚ :=
  (l.map (fun x => (x - l.sum / (l.length : ℚ)) ^ 2)).sum / (l.length : ℚ)

/-- A population variance is nonnegative. -/
theorem specPopVariance_nonneg (l : List ℚ) : 0 ≤ specPopVariance l := by
  apply div_nonneg
  · apply List.sum_nonneg
    intro x hx
    rcases List.mem_map.1 hx with ⟨y, -, rfl⟩
    positivity
  · exact Nat.cast_nonneg _

/-- C7: with at least two beat indices, the returned `sdnn` equals
`round (1000 * population standard deviation)` of the RR intervals, the
standard deviation dividing by `N`, not `N-1`. -/
theorem calculateStats_sdnn (p : List ℕ) (t : List ℚ) (h : 2 ≤ p.length) :
    (calculateStats p t).sdnn =
      round ((1000 : ℝ) *
        Real.sqrt ((specPopVariance (specRRIntervals p t) : ℚ) : ℝ)) := by
  have hnl : ¬ p.length < 2 := not_lt.2 h
  simp only [calculateStats, if_neg hnl]
  have harg :
      ((specRRIntervals p t).map
          (fun rr => (rr - (specRRIntervals p t).sum /
            ((specRRIntervals p t).length : ℚ)) ^ 2)).sum /
        ((((specRRIntervals p t)).map
          (fun rr => (rr - (specRRIntervals p t).sum /
            ((specRRIntervals p t).length : ℚ)) ^ 2)).length : ℚ)
      = specPopVariance (specRRIntervals p t) := by
    rw [List.length_map]
    rfl
  rw [show (p.zip p.tail).map (fun ab => t.getD ab.2 0 - t.getD ab.1 0)
      = specRRIntervals p t from rfl]
  rw [harg]
  rw [roundSqrtMul_eq_round 1000 _ (specPopVariance_nonneg _)]
  norm_num

/-- Witness for C7 at beats `[0, 1]` over `time = [0, 1]`. -/
theorem calculateStats_sdnn_witness :
    2 ≤ ([0, 1] : List ℕ).length ∧
    (calculateStats [0, 1] [0, 1]).sdnn =
      round ((1000 : ℝ) *
        Real.sqrt ((specPopVariance (specRRIntervals [0, 1] [0, 1]) : ℚ) : ℝ)) :=
  ⟨by decide, calculateStats_sdnn [0, 1] [0, 1] (by decide)⟩

/-- C8 (amended): `qrsDuration` is a hardcoded placeholder on both code
paths, never derived from the data — `90` ms with at least two beat indices
and `80` ms in the degenerate branch. -/
theorem calculateStats_qrs_placeholder (p : List ℕ) (t : List ℚ) :
    (2 ≤ p.length → (calculateStats p t).qrsDuration = 90) ∧
    (p.length < 2 → (calculateStats p t).qrsDuration = 80) := by
  constructor
  · intro h
    simp only [calculateStats, if_neg (not_lt.2 h)]
  · intro h
    simp only [calculateStats, if_pos h]

/-- Counterexample to C8 as stated: with fewer than two beats the placeholder
is `80`, not `90`, so `qrsDuration` is not `90` for every input. -/
theorem calculateStats_qrs_counterexample :
    (calculateStats [] []).qrsDuration = 80 ∧
    ¬ (calculateStats [] []).qrsDuration = 90 := by
  refine ⟨by norm_num [calculateStats], ?_⟩
  norm_num [calculateStats]

/-- Witness for the amended C8 on both branches. -/
theorem calculateStats_qrs_placeholder_witness :
    (2 ≤ ([0, 1] : List ℕ).length ∧
      (calculateStats [0, 1] [0, 1]).qrsDuration = 90) ∧
    (([] : List ℕ).length < 2 ∧
      (calculateStats [] ([] : List ℚ)).qrsDuration = 80) :=
  ⟨⟨by decide, (calculateStats_qrs_placeholder [0, 1] [0, 1]).1 (by decide)⟩,
   ⟨by decide, (calculateStats_qrs_placeholder [] []).2 (by decide)⟩⟩

/-! ### Claim theorems: segmenter -/

/-- An in-bounds `jsSet` is an overwrite and preserves the array length. -/
theorem jsSet_length_of_lt {segs : List (Option WaveSegment)} {i : ℕ}
    (h : i < segs.length) (a : WaveSegment) :
    (jsSet segs i a).length = segs.length := by
  unfold jsSet
  rw [if_pos h, List.length_set]

/-- In-bounds backward labelling preserves the length of the label array. -/
theorem backLabel_length (time : List ℚ) (tR : ℚ) (i : ℕ)
    (segs : List (Option WaveSegment)) (h : i < segs.length) :
    (backLabel time tR i segs).length = segs.length := by
  unfold backLabel
  split_ifs <;> simp [jsSet_length_of_lt h]

/-- In-bounds forward labelling preserves the length of the label array. -/
theorem fwdLabel_length (time : List ℚ) (tR : ℚ) (i : ℕ)
    (segs : List (Option WaveSegment)) (h : i < segs.length) :
    (fwdLabel time tR i segs).length = segs.length := by
  unfold fwdLabel
  split_ifs <;> simp [jsSet_length_of_lt h]

/-- The backward scan preserves the length of the label array when it starts
in bounds (every visited index is smaller). -/
theorem backScan_length (time : List ℚ) (tR : ℚ) :
    ∀ i segs, i < segs.length → (backScan time tR i segs).length = segs.length := by
  intro i
  induction i with
  | zero =>
    intro segs h
    simp only [backScan]
    split_ifs
    · rfl
    · exact backLabel_length time tR 0 segs h
  | succ j ih =>
    intro segs h
    simp only [backScan]
    split_ifs
    · rfl
    · have hl := backLabel_length time tR (j + 1) segs h
      rw [ih _ (by rw [hl]; omega), hl]

/-- The forward scan preserves the length of the label array when the array
covers the signal (its loop guard bounds every write by `time.length`). -/
theorem fwdScanAux_length (time : List ℚ) (tR : ℚ) :
    ∀ fuel i segs, time.length ≤ segs.length →
      (fwdScanAux time tR fuel i segs).length = segs.length := by
  intro fuel
  induction fuel with
  | zero => intro i segs _; rfl
  | succ f ih =>
    intro i segs hle
    simp only [fwdScanAux]
    split_ifs with h1 h2
    · rfl
    · have hl := fwdLabel_length time tR i segs (lt_of_lt_of_le h1 hle)
      rw [ih (i + 1) _ (by rw [hl]; exact hle), hl]
    · rfl

/-- The per-beat fold of the segmenter preserves the label-array length when
the array starts parallel to `time`: a beat index with `time[idx]` undefined
is a no-op, and a defined one keeps every write inside `time.length`. -/
theorem segment_fold_length (time : List ℚ) (beats : List ℕ) :
    ∀ segs : List (Option WaveSegment), segs.length = time.length →
      (beats.foldl
        (fun segs idx =>
          match time[idx]? with
          | none => segs
          | some tR => fwdScan time tR (idx + 1) (backScan time tR idx segs))
        segs).length = time.length := by
  induction beats with
  | nil => exact fun segs h => h
  | cons b bs ih =>
    intro segs h
    rw [List.foldl_cons]
    apply ih
    cases hb : time[b]? with
    | none => exact h
    | some tR =>
      have hblt : b < time.length := by
        by_contra hge
        rw [List.getElem?_eq_none (not_lt.1 hge)] at hb
        cases hb
      have hback : (backScan time tR b segs).length = segs.length :=
        backScan_length time tR b segs (by omega)
      simp only [fwdScan]
      rw [fwdScanAux_length time tR _ _ _ (by rw [hback]; exact le_of_eq h.symm)]
      rw [hback]
      exact h

/-- Counterexample to C5 as stated: `segmentECGData` starts from a copy of
`data.segments` whenever that field is present (any JavaScript array is
truthy), so with zero beats a provided non-baseline array is returned as-is,
and a provided array of a different length than `time` fixes the output
length, not `len(time)`. -/
theorem segmentECGData_coverage_counterexample :
    (segmentECGData ⟨[0], [0], some [some WaveSegment.p]⟩ []).segments
      = some [some WaveSegment.p] ∧
    some WaveSegment.p ≠ some WaveSegment.baseline ∧
    (segmentECGData ⟨[0, 1], [0, 0], some [some WaveSegment.p]⟩ []).segments
      = some [some WaveSegment.p] ∧
    ¬ [some WaveSegment.p].length = ([0, 1] : List ℚ).length :=
  ⟨rfl, by decide, rfl, by decide⟩

/-- C5 (amended): when `data.segments` is absent the segmenter starts from a
fresh all-baseline array of length `len(time)` and the output keeps exactly
one label per input sample for every beat list — the empty signal yielding
the empty array and zero beat indices leaving every sample `baseline`; when
`data.segments` is provided, zero beat indices return the provided labels
unchanged (hence neither all-baseline nor of length `len(time)` in
general). -/
theorem segmentECGData_coverage_amended (data : ECGData) (beats : List ℕ) :
    (data.segments = none →
       ∃ s, (segmentECGData data beats).segments = some s ∧
         s.length = data.time.length) ∧
    (data.segments = none → data.time = [] →
       (segmentECGData data beats).segments = some []) ∧
    (data.segments = none → beats = [] →
       (segmentECGData data beats).segments
         = some (List.replicate data.time.length (some WaveSegment.baseline))) ∧
    (∀ s0, data.segments = some s0 → beats = [] →
       (segmentECGData data beats).segments = some s0) := by
  have h1 : data.segments = none →
      ∃ s, (segmentECGData data beats).segments = some s ∧
        s.length = data.time.length := by
    intro hs
    refine ⟨_, rfl, ?_⟩
    simp only [segmentECGData, hs]
    exact segment_fold_length data.time beats _ (List.length_replicate ..)
  refine ⟨h1, ?_, ?_, ?_⟩
  · intro hs ht
    obtain ⟨s, hseg, hlen⟩ := h1 hs
    have hs0 : s = [] := List.length_eq_zero.1 (by simp [hlen, ht])
    rw [hseg, hs0]
  · intro hs hb
    subst hb
    simp only [segmentECGData, hs, List.foldl_nil]
  · intro s0 hs hb
    subst hb
    simp only [segmentECGData, hs, List.foldl_nil]

/-- Witness for the amended C5: a 2-sample signal without labels, the empty
signal, and a provided label array returned unchanged at zero beats. -/
theorem segmentECGData_coverage_amended_witness :
    (segmentECGData ⟨[0, 1], [0, 1], none⟩ []).segments
      = some (List.replicate (([0, 1] : List ℚ).length) (some WaveSegment.baseline)) ∧
    (segmentECGData ⟨[], [], none⟩ []).segments = some [] ∧
    (segmentECGData ⟨[0], [0], some [some WaveSegment.p]⟩ []).segments
      = some [some WaveSegment.p] :=
  ⟨(segmentECGData_coverage_amended ⟨[0, 1], [0, 1], none⟩ []).2.2.1 rfl rfl,
   (segmentECGData_coverage_amended ⟨[], [], none⟩ []).2.1 rfl rfl,
   (segmentECGData_coverage_amended ⟨[0], [0], some [some WaveSegment.p]⟩ []).2.2.2
     _ rfl rfl⟩

/-- Backward labelling step written following the claim's wording for C6: the
`qrs` and `p` window tests are applied independently, `qrs` first — the two
windows are mutually exclusive, so this agrees with the source's else-if. -/
def specBackLabel (time : List ℚ) (tR : ℚ) (i : ℕ)
    (segs : List (Option WaveSegment)) : List (Option WaveSegment) :=
  let s1 := if tR - time.getD i 0 ≤ 0.06 then jsSet segs i WaveSegment.qrs else segs
  if tR - time.getD i 0 > 0.1 ∧ tR - time.getD i 0 < 0.22 then
    jsSet s1 i WaveSegment.p
  else s1

/-- Forward labelling step following the claim's wording for C6, `t` window
applied before the (mutually exclusive) `qrs` window. -/
def specFwdLabel (time : List ℚ) (tR : ℚ) (i : ℕ)
    (segs : List (Option WaveSegment)) : List (Option WaveSegment) :=
  let s1 := if time.getD i 0 - tR > 0.12 ∧ time.getD i 0 - tR < 0.42 then
    jsSet segs i WaveSegment.t else segs
  if time.getD i 0 - tR < 0.06 then jsSet s1 i WaveSegment.qrs else s1

/-- Backward scan from `idx` toward `0` per the claim: stops once
`tR - time[i] > 0.25`. -/
def specBackScan (time : List ℚ) (tR : ℚ) :
    ℕ → List (Option WaveSegment) → List (Option WaveSegment)
  | 0, segs =>
    if tR - time.getD 0 0 > 0.25 then segs else specBackLabel time tR 0 segs
  | Nat.succ j, segs =>
    if tR - time.getD (j + 1) 0 > 0.25 then segs
    else specBackScan time tR j (specBackLabel time tR (j + 1) segs)

/-- Forward scan from `idx + 1` per the claim: continues while
`time[i] - tR ≤ 0.45` (and while in bounds). -/
def specFwdScanAux (time : List ℚ) (tR : ℚ) :
    ℕ → ℕ → List (Option WaveSegment) → List (Option WaveSegment)
  | 0, _, segs => segs
  | fuel + 1, i, segs =>
    if i < time.length then
      if time.getD i 0 - tR > 0.45 then segs
      else specFwdScanAux time tR fuel (i + 1) (specFwdLabel time tR i segs)
    else segs

/-- The segmenter as the claim sentence for C6 describes it: beats processed
in detection order, per beat with `tR = time[idx]` a backward scan then a
forward scan, each assignment overwriting any earlier label of the same
sample (`jsSet`). -/
def specSegment (data : ECGData) (beats : List ℕ) : ECGData :=
  let segs0 :=
    match data.segments with
    | some s => s
    | none => List.replicate data.time.length (some WaveSegment.baseline)
  let segs := beats.foldl
    (fun segs idx =>
      match data.time[idx]? with
      | none => segs
      | some tR =>
        specFwdScanAux data.time tR (data.time.length - (idx + 1)) (idx + 1)
          (specBackScan data.time tR idx segs))
    segs0
  { data with segments := some segs }

/-- The source's backward labelling (else-if chain, `p` tested first) agrees
with the claim's independent-window form because the windows are disjoint. -/
theorem backLabel_eq_spec (time : List ℚ) (tR : ℚ) (i : ℕ)
    (segs : List (Option WaveSegment)) :
    backLabel time tR i segs = specBackLabel time tR i segs := by
  unfold backLabel specBackLabel
  by_cases hp : tR - time.getD i 0 > 0.1 ∧ tR - time.getD i 0 < 0.22
  · rw [if_pos hp, if_pos hp, if_neg (not_le.2 (by linarith [hp.1]))]
  · rw [if_neg hp, if_neg hp]

/-- The source's forward labelling agrees with the claim's
independent-window form because the windows are disjoint. -/
theorem fwdLabel_eq_spec (time : List ℚ) (tR : ℚ) (i : ℕ)
    (segs : List (Option WaveSegment)) :
    fwdLabel time tR i segs = specFwdLabel time tR i segs := by
  unfold fwdLabel specFwdLabel
  by_cases hq : time.getD i 0 - tR < 0.06
  · rw [if_pos hq, if_pos hq, if_neg (fun ht => absurd ht.1 (by linarith))]
  · rw [if_neg hq, if_neg hq]

/-- The full backward scans agree sample by sample. -/
theorem backScan_eq_spec (time : List ℚ) (tR : ℚ) :
    ∀ i segs, backScan time tR i segs = specBackScan time tR i segs := by
  intro i
  induction i with
  | zero =>
    intro segs
    simp only [backScan, specBackScan, backLabel_eq_spec]
  | succ j ih =>
    intro segs
    simp only [backScan, specBackScan, backLabel_eq_spec, ih]

/-- The full forward scans agree sample by sample. -/
theorem fwdScanAux_eq_spec (time : List ℚ) (tR : ℚ) :
    ∀ fuel i segs,
      fwdScanAux time tR fuel i segs = specFwdScanAux time tR fuel i segs := by
  intro fuel
  induction fuel with
  | zero => intro i segs; rfl
  | succ f ih =>
    intro i segs
    simp only [fwdScanAux, specFwdScanAux, fwdLabel_eq_spec, ih]

/-- C6: `segmentECGData` coincides, on every input, with the scan procedure
exactly as the claim words it — beats in detection order, backward scan
stopping past 0.25 s labelling `p` on `0.1 < dt < 0.22` and `qrs` on
`dt ≤ 0.06`, forward scan from `idx+1` while `dt ≤ 0.45` labelling `qrs` on
`dt < 0.06` and `t` on `0.12 < dt < 0.42`, later assignments overwriting
earlier labels. -/
theorem segmentECGData_matches_spec_windows (data : ECGData) (beats : List ℕ) :
    segmentECGData data beats = specSegment data beats := by
  have hbody : (fun (segs : List (Option WaveSegment)) idx =>
      match data.time[idx]? with
      | none => segs
      | some tR => fwdScan data.time tR (idx + 1) (backScan data.time tR idx segs))
    = (fun segs idx =>
      match data.time[idx]? with
      | none => segs
      | some tR =>
        specFwdScanAux data.time tR (data.time.length - (idx + 1)) (idx + 1)
          (specBackScan data.time tR idx segs)) := by
    funext segs idx
    cases data.time[idx]? with
    | none => rfl
    | some tR => simp only [fwdScan, backScan_eq_spec, fwdScanAux_eq_spec]
  simp only [segmentECGData, specSegment, hbody]
